import Mathlib

/-!
Verification of the chunk-processing pipeline of the bilingual terminology
extractor (src/utils/promptGenerator.ts, src/utils/geminiApi.ts).

Shallow embedding conventions:
* JavaScript strings are modelled by Lean `String` (a list of code points);
  `string.length` is modelled by `String.length`.  JavaScript counts UTF-16
  code units, which agrees with code-point counting on all characters of the
  basic multilingual plane; the additive law
  `(s + t).length = s.length + t.length` holds in both readings.
* `String.prototype.toLowerCase` is modelled by `toLowerCase` below
  (character-wise lowering); `String.prototype.trim` is modelled by `jsTrim`
  (dropping leading/trailing whitespace characters).
* The fallible LLM call (`callGeminiApi`) is modelled by an oracle
  `chunkIndex → attemptIndex → prompt → Except Unit (List TerminologyPair)`:
  `Except.error` models a thrown exception, `Except.ok` a returned list.
* `setTimeout` delays are recorded as a trace of requested sleep durations
  (milliseconds) rather than real time.
* `Math.floor((processed / total) * 100)` is modelled by the exact integer
  computation `processed * 100 / total` (natural-number division).
-/

namespace TermiExtract

/-- One aligned source/target segment pair, as produced by the TMX parser
(`tmxParser.ts`, interface `TmxData.translationUnits` entries). -/
structure TranslationUnit where
  source : String
  target : String
deriving Repr, DecidableEq

/-- Parsed TMX document (`tmxParser.ts`, interface `TmxData`). -/
structure TmxData where
  sourceLanguage : String
  targetLanguage : String
  translationUnits : List TranslationUnit
deriving Repr, DecidableEq

/-- One extracted terminology pair (`geminiApi.ts`, interface
`TerminologyPair`). -/
structure TerminologyPair where
  sourceTerm : String
  targetTerm : String
deriving Repr, DecidableEq

/-- Model of `String.prototype.toLowerCase`: lower each character.  (JS lowers
the full Unicode table; `Char.toLower` covers the ASCII range, which is all the
proofs below rely on.) -/
def toLowerCase (s : String) : String :=
  ⟨s.data.map Char.toLower⟩

/-- Whitespace recognised by the model of `String.prototype.trim`. -/
def jsWhitespace (c : Char) : Bool :=
  c = ' ' || c = '\t' || c = '\n' || c = '\x0d' || c = '\x0b' || c = '\x0c'

/-- Model of `String.prototype.trim`: drop leading and trailing whitespace. -/
def jsTrim (s : String) : String :=
  ⟨((s.data.dropWhile jsWhitespace).reverse.dropWhile jsWhitespace).reverse⟩

/-- `promptGenerator.ts` line 186: `estimateTokens` — `Math.ceil(text.length / 4)`. -/
def estimateTokens (text : String) : Nat :=
  (text.length + 3) / 4

/-- Estimated token cost of one translation unit:
`estimateTokens(unit.source + unit.target)` (line 241). -/
def unitTokens (u : TranslationUnit) : Nat :=
  estimateTokens (u.source ++ u.target)

/-- Estimated token total of a chunk: the sum of its per-unit estimates. -/
def sumTokens (c : List TranslationUnit) : Nat :=
  (c.map unitTokens).sum

/-- Chunking loop of `processTmxInChunks` (lines 240-253): walk the units,
closing the running chunk when adding the next unit would exceed the budget
and the running chunk is non-empty.  Returns the closed chunks and the final
running chunk (`currentChunkTokens` is the loop variable of the source; the
proofs relate it to `sumTokens` of the running chunk). -/
def chunkLoop (maxTokensPerChunk : Nat) :
    List TranslationUnit → List (List TranslationUnit) → List TranslationUnit → Nat →
    List (List TranslationUnit) × List TranslationUnit
  | [], chunks, currentChunk, _ => (chunks, currentChunk)
  | u :: rest, chunks, currentChunk, currentChunkTokens =>
    if currentChunkTokens + unitTokens u > maxTokensPerChunk ∧ currentChunk ≠ [] then
      chunkLoop maxTokensPerChunk rest (chunks ++ [currentChunk]) [u] (unitTokens u)
    else
      chunkLoop maxTokensPerChunk rest chunks (currentChunk ++ [u])
        (currentChunkTokens + unitTokens u)

/-- Chunking step of `processTmxInChunks` (lines 236-258): run the loop and
append the final running chunk if it is non-empty. -/
def makeChunks (maxTokensPerChunk : Nat) (units : List TranslationUnit) :
    List (List TranslationUnit) :=
  let r := chunkLoop maxTokensPerChunk units [] [] 0
  if r.2 ≠ [] then r.1 ++ [r.2] else r.1

/-- Model of a JavaScript `Map<string, string>` as an ordered association
list: `set` on a fresh key appends at the end, `set` on a present key updates
in place, so `entries()` iteration order is first-insertion order. -/
def mapSet : List (String × String) → String → String → List (String × String)
  | [], k, v => [(k, v)]
  | (k0, v0) :: rest, k, v =>
    if k0 = k then (k0, v) :: rest else (k0, v0) :: mapSet rest k v

/-- Model of `Map.prototype.get` (`undefined` becomes `none`). -/
def mapGet : List (String × String) → String → Option String
  | [], _ => none
  | (k0, v0) :: rest, k => if k0 = k then some v0 else mapGet rest k

/-- Body of the `terms.forEach` in `deduplicateTerms` (lines 194-203): skip
entries with a falsy (empty) field; otherwise store the target under the
lowercased source key when the key is absent, when the stored value is falsy,
or when the stored value is strictly shorter than the new target. -/
def dedupInsert (m : List (String × String)) (term : TerminologyPair) :
    List (String × String) :=
  if term.sourceTerm = "" ∨ term.targetTerm = "" then m
  else
    match mapGet m (toLowerCase term.sourceTerm) with
    | none => mapSet m (toLowerCase term.sourceTerm) term.targetTerm
    | some existing =>
      if existing = "" ∨ existing.length < term.targetTerm.length then
        mapSet m (toLowerCase term.sourceTerm) term.targetTerm
      else m

/-- Map callback of `deduplicateTerms` (lines 207-213): re-attach the original
casing of the first input entry whose lowercased source matches the key.  The
JS `originalTerm?.sourceTerm || sourceLower` falls back to the lowercased key
when `find` misses or the found source term is falsy (empty). -/
def restoreCasing (terms : List TerminologyPair) (kv : String × String) :
    TerminologyPair :=
  match terms.find? (fun t => toLowerCase t.sourceTerm == kv.1) with
  | some originalTerm =>
    { sourceTerm := if originalTerm.sourceTerm = "" then kv.1 else originalTerm.sourceTerm,
      targetTerm := kv.2 }
  | none => { sourceTerm := kv.1, targetTerm := kv.2 }

/-- `promptGenerator.ts` lines 191-215: `deduplicateTerms`.  Builds the map,
keeps entries whose key and value are truthy (`filter(([source, target]) =>
source && target)`), and restores original casing per entry. -/
def deduplicateTerms (terms : List TerminologyPair) : List TerminologyPair :=
  let uniqueTerms := terms.foldl dedupInsert []
  (uniqueTerms.filter (fun kv => kv.1 != "" && kv.2 != "")).map (restoreCasing terms)

/-- Validity filter applied to the collected raw pairs before deduplication
(`processTmxInChunks` lines 332-339).  The dynamic-typing checks (`term` is an
object, both fields are strings) hold by construction in the typed model; the
remaining checks require both fields to be non-empty after trimming. -/
def validTerm (t : TerminologyPair) : Bool :=
  jsTrim t.sourceTerm != "" && jsTrim t.targetTerm != ""

/-- Aggregation step of `processTmxInChunks` (lines 331-342): validity filter
followed by deduplication. -/
def aggregate (terms : List TerminologyPair) : List TerminologyPair :=
  deduplicateTerms (terms.filter validTerm)

/-- Effect of one `dedupInsert` step on the value stored under a fixed key, as
a function of the previously stored value (`none` = key absent). -/
def optStep (acc : Option String) (t : String) : Option String :=
  match acc with
  | none => some t
  | some e => if e = "" ∨ e.length < t.length then some t else some e

/-- Modelled from the spec (§4.3, claim C5 wording): the representative target
of a case-insensitive source group — the group's targets folded with the
strict "keep the longer, ties keep the first seen" rule. -/
def specBestTarget (terms : List TerminologyPair) (key : String) : String :=
  ((terms.filter (fun t => toLowerCase t.sourceTerm == key)).map
      TerminologyPair.targetTerm).foldl
    (fun acc t => if acc.length < t.length then t else acc) ""

/-- Model of the escaping performed by `JSON.stringify` on one character
(backslash, quote and the common control characters; other characters pass
through unchanged). -/
def jsonEscapeChar (c : Char) : String :=
  if c = '\\' then "\\\\"
  else if c = '\"' then "\\\""
  else if c = '\n' then "\\n"
  else if c = '\x0d' then "\\r"
  else if c = '\t' then "\\t"
  else String.singleton c

/-- Escape a string for embedding in a JSON string literal. -/
def jsonEscape (s : String) : String :=
  String.join (s.data.map jsonEscapeChar)

/-- Serialization of one translation unit as produced by
`JSON.stringify(translationSamples, null, 2)` for an array element. -/
def jsonUnit (u : TranslationUnit) : String :=
  "  \x7b\n    \"source\": \"" ++ jsonEscape u.source ++ "\",\n    \"target\": \""
    ++ jsonEscape u.target ++ "\"\n  \x7d"

/-- Model of `JSON.stringify(translationSamples, null, 2)` on the unit list. -/
def jsonStringifyUnits (units : List TranslationUnit) : String :=
  match units with
  | [] => "[]"
  | _ => "[\n" ++ String.intercalate ",\n" (units.map jsonUnit) ++ "\n]"

/-- `promptGenerator.ts` lines 10-42: `generatePrompt`.  Serializes only the
first 100 translation units (`slice(0, 100)`) into the instruction string. -/
def generatePrompt (tmxData : TmxData) (datasetInfo : String) : String :=
  let translationSamples := tmxData.translationUnits.take 100
  "\nYou are a terminology extraction expert. Extract bilingual terminology pairs from the following translation memory data.\n\nDataset Information:\n"
    ++ datasetInfo
    ++ "\n\nLanguage Pair:\nSource Language: " ++ tmxData.sourceLanguage
    ++ "\nTarget Language: " ++ tmxData.targetLanguage
    ++ "\n\nTranslation Memory Data (sample of " ++ toString translationSamples.length
    ++ " translation units):\n" ++ jsonStringifyUnits translationSamples
    ++ "\n\nPlease analyze these translation units and extract bilingual terminology pairs. \nFocus on specialized terms, technical concepts, and domain-specific vocabulary.\nReturn your answer in the following JSON format only:\n\x7b\n  \"terminologyPairs\": [\n    \x7b\n      \"sourceTerm\": \"term in source language\",\n      \"targetTerm\": \"equivalent term in target language\"\n    \x7d,\n    ...\n  ]\n\x7d\n"

/-- Observable outcome of the retry loop for one chunk: the terms the loop
ends with, whether the chunk was marked failed (`failedChunks++`), the number
of extraction calls made, and the requested backoff sleeps in milliseconds,
in order. -/
structure RetryOutcome where
  terms : List TerminologyPair
  failed : Bool
  attempts : Nat
  sleeps : List Nat
deriving Repr, DecidableEq

/-- Retry loop of `processTmxInChunks` (lines 276-311), for one chunk.  The
source iterates `while (retryCount <= maxRetries)` with `maxRetries = 2` and
increments `retryCount` before sleeping `1000 * Math.pow(2, retryCount)` ms;
here the loop is phrased by structural recursion on the number of retries
still available (`maxRetries - retryCount`), so `retriesLeft = 0` is the last
permitted attempt.  `call` is the chunk's extraction call, indexed by attempt
number. -/
def chunkRetryGo (call : Nat → Except Unit (List TerminologyPair)) :
    Nat → Nat → RetryOutcome
  | retryCount, 0 =>
    match call retryCount with
    | Except.ok ts => if 0 < ts.length then ⟨ts, false, 1, []⟩ else ⟨[], true, 1, []⟩
    | Except.error _ => ⟨[], true, 1, []⟩
  | retryCount, retriesLeft + 1 =>
    match call retryCount with
    | Except.ok ts =>
      if 0 < ts.length then ⟨ts, false, 1, []⟩
      else
        let r := chunkRetryGo call (retryCount + 1) retriesLeft
        ⟨r.terms, r.failed, r.attempts + 1, 1000 * 2 ^ (retryCount + 1) :: r.sleeps⟩
    | Except.error _ =>
      let r := chunkRetryGo call (retryCount + 1) retriesLeft
      ⟨r.terms, r.failed, r.attempts + 1, 1000 * 2 ^ (retryCount + 1) :: r.sleeps⟩

/-- The per-chunk retry loop with the source's constants: `retryCount = 0`,
`maxRetries = 2`. -/
def chunkRetry (call : Nat → Except Unit (List TerminologyPair)) : RetryOutcome :=
  chunkRetryGo call 0 2

/-- Whether one extraction attempt counts as a success for the retry loop:
it returned (did not throw) and yielded at least one pair. -/
def attemptSucceeds : Except Unit (List TerminologyPair) → Bool
  | Except.ok ts => decide (0 < ts.length)
  | Except.error _ => false

/-- The list a finished attempt leaves in `chunkTerms` (a throw leaves the
initial empty list in place). -/
def resultTerms : Except Unit (List TerminologyPair) → List TerminologyPair
  | Except.ok ts => ts
  | Except.error _ => []

/-- Modelled from the amended claim C3: at most 3 attempts; an attempt is
retried exactly when it throws or returns zero pairs while retries remain;
the waits before the first and second re-attempts are `1000 * 2^1 = 2000` ms
and `1000 * 2^2 = 4000` ms (the source increments `retryCount` before
computing the backoff). -/
def specRetry (call : Nat → Except Unit (List TerminologyPair)) : RetryOutcome :=
  if attemptSucceeds (call 0) then ⟨resultTerms (call 0), false, 1, []⟩
  else if attemptSucceeds (call 1) then ⟨resultTerms (call 1), false, 2, [2000]⟩
  else if attemptSucceeds (call 2) then ⟨resultTerms (call 2), false, 3, [2000, 4000]⟩
  else ⟨[], true, 3, [2000, 4000]⟩

/-- Loop state of the chunk-processing `for` loop of `processTmxInChunks`
(lines 263-320), together with the observable traces it emits (progress
reports, attempt counts, sleeps, prompts). -/
structure DriverState where
  allTerms : List TerminologyPair
  processedUnits : Nat
  failedChunks : Nat
  progress : List Nat
  attemptsPerChunk : List Nat
  sleepsPerChunk : List (List Nat)
  prompts : List String
deriving Repr, DecidableEq

/-- Progress reported after a chunk (lines 317-319):
`Math.min(100, Math.floor((processedUnits / totalUnits) * 100))`, modelled
with exact natural-number division. -/
def progressValue (processedUnits totalUnits : Nat) : Nat :=
  min 100 (processedUnits * 100 / totalUnits)

/-- One iteration of the chunk loop (lines 263-320): build the chunk's
prompt, run the retry loop against the oracle, accumulate terms, failed
count, processed units and the progress report. -/
def processOneChunk (oracle : Nat → Nat → String → Except Unit (List TerminologyPair))
    (tmxData : TmxData) (datasetInfo : String) (totalUnits : Nat) (i : Nat)
    (chunk : List TranslationUnit) (s : DriverState) : DriverState :=
  let chunkTmxData : TmxData := { tmxData with translationUnits := chunk }
  let prompt := generatePrompt chunkTmxData datasetInfo
  let r := chunkRetry (fun attempt => oracle i attempt prompt)
  { allTerms := s.allTerms ++ r.terms
    processedUnits := s.processedUnits + chunk.length
    failedChunks := s.failedChunks + (if r.failed then 1 else 0)
    progress := s.progress ++ [progressValue (s.processedUnits + chunk.length) totalUnits]
    attemptsPerChunk := s.attemptsPerChunk ++ [r.attempts]
    sleepsPerChunk := s.sleepsPerChunk ++ [r.sleeps]
    prompts := s.prompts ++ [prompt] }

/-- The chunk loop itself, indexed like the source's `for (let i = 0; ...)`. -/
def processChunksGo (oracle : Nat → Nat → String → Except Unit (List TerminologyPair))
    (tmxData : TmxData) (datasetInfo : String) (totalUnits : Nat) :
    Nat → List (List TranslationUnit) → DriverState → DriverState
  | _, [], s => s
  | i, chunk :: rest, s =>
    processChunksGo oracle tmxData datasetInfo totalUnits (i + 1) rest
      (processOneChunk oracle tmxData datasetInfo totalUnits i chunk s)

/-- Initial loop state (lines 229-231). -/
def initialDriverState : DriverState := ⟨[], 0, 0, [], [], [], []⟩

/-- Result of `processTmxInChunks`: the returned pair list plus the observable
traces of the run. -/
structure DriverResult where
  terms : List TerminologyPair
  progress : List Nat
  failedChunks : Nat
  attemptsPerChunk : List Nat
  sleepsPerChunk : List (List Nat)
  prompts : List String
deriving Repr, DecidableEq

/-- `promptGenerator.ts` lines 217-346: `processTmxInChunks`.  Chunk the
units, process each chunk with the retry loop, then filter invalid pairs and
deduplicate.  The fallible extraction call is abstracted as an oracle indexed
by chunk number, attempt number and prompt; the model is a total function —
per-chunk failures are absorbed by the retry loop, as in the source. -/
def processTmxInChunks (oracle : Nat → Nat → String → Except Unit (List TerminologyPair))
    (maxTokensPerChunk : Nat) (tmxData : TmxData) (datasetInfo : String) : DriverResult :=
  let chunks := makeChunks maxTokensPerChunk tmxData.translationUnits
  let s := processChunksGo oracle tmxData datasetInfo tmxData.translationUnits.length
    0 chunks initialDriverState
  { terms := deduplicateTerms (s.allTerms.filter validTerm)
    progress := s.progress
    failedChunks := s.failedChunks
    attemptsPerChunk := s.attemptsPerChunk
    sleepsPerChunk := s.sleepsPerChunk
    prompts := s.prompts }

/-- The retry outcome of chunk `i` with content `chunk`, as produced inside
the chunk loop. -/
def chunkOutcome (oracle : Nat → Nat → String → Except Unit (List TerminologyPair))
    (tmxData : TmxData) (datasetInfo : String) (i : Nat)
    (chunk : List TranslationUnit) : RetryOutcome :=
  chunkRetry (fun attempt => oracle i attempt
    (generatePrompt { tmxData with translationUnits := chunk } datasetInfo))

/-- The retry outcomes of a list of chunks starting at index `i`. -/
def outcomesFrom (oracle : Nat → Nat → String → Except Unit (List TerminologyPair))
    (tmxData : TmxData) (datasetInfo : String) :
    Nat → List (List TranslationUnit) → List RetryOutcome
  | _, [] => []
  | i, c :: cs =>
    chunkOutcome oracle tmxData datasetInfo i c ::
      outcomesFrom oracle tmxData datasetInfo (i + 1) cs

/-- The sequence of progress reports for chunks of the given sizes, starting
from `p` units already processed. -/
def prefixProgress (totalUnits : Nat) : List Nat → Nat → List Nat
  | [], _ => []
  | n :: ns, p => progressValue (p + n) totalUnits :: prefixProgress totalUnits ns (p + n)

/-- An extraction call that always throws. -/
def alwaysThrow : Nat → Except Unit (List TerminologyPair) :=
  fun _ => Except.error ()

/-- Concrete one-unit document used to instantiate the driver theorems. -/
def witnessTmx : TmxData := ⟨"en", "es", [⟨"alpha", "beta"⟩]⟩

/-- An oracle whose every call returns one fixed pair. -/
def witnessOracleOk : Nat → Nat → String → Except Unit (List TerminologyPair) :=
  fun _ _ _ => Except.ok [⟨"hello", "world"⟩]

/-- An oracle whose every call throws. -/
def witnessOracleFail : Nat → Nat → String → Except Unit (List TerminologyPair) :=
  fun _ _ _ => Except.error ()

/-- An oracle returning a pair wrapped in extra whitespace. -/
def witnessOraclePadded : Nat → Nat → String → Except Unit (List TerminologyPair) :=
  fun _ _ _ => Except.ok [⟨" hello ", " world "⟩]

end TermiExtract

namespace TermiExtract

theorem chunkLoop_flatten (maxTok : Nat) :
    ∀ (us : List TranslationUnit) (chunks : List (List TranslationUnit))
      (cur : List TranslationUnit) (tok : Nat),
      (chunkLoop maxTok us chunks cur tok).1.flatten ++ (chunkLoop maxTok us chunks cur tok).2 =
        chunks.flatten ++ cur ++ us := by
  intro us
  induction us with
  | nil => intro chunks cur tok; simp [chunkLoop]
  | cons u rest ih =>
    intro chunks cur tok
    by_cases h : tok + unitTokens u > maxTok ∧ cur ≠ []
    · simp only [chunkLoop, if_pos h, ih]
      simp
    · simp only [chunkLoop, if_neg h, ih]
      simp

theorem chunkLoop_chunks_nonempty (maxTok : Nat) :
    ∀ (us : List TranslationUnit) (chunks : List (List TranslationUnit))
      (cur : List TranslationUnit) (tok : Nat),
      (∀ c ∈ chunks, c ≠ []) →
      ∀ c ∈ (chunkLoop maxTok us chunks cur tok).1, c ≠ [] := by
  intro us
  induction us with
  | nil => intro chunks cur tok h; simpa [chunkLoop] using h
  | cons u rest ih =>
    intro chunks cur tok h
    by_cases hc : tok + unitTokens u > maxTok ∧ cur ≠ []
    · simp only [chunkLoop, if_pos hc]
      refine ih _ _ _ ?_
      intro c hc'
      rcases List.mem_append.mp hc' with h1 | h2
      · exact h c h1
      · simpa using (List.mem_singleton.mp h2 ▸ hc.2)
    · simp only [chunkLoop, if_neg hc]
      exact ih _ _ _ h

/-- Claim C1: the chunking step of `processTmxInChunks` is total-unit-preserving
for every ordered unit list and positive `maxTokensPerChunk`: the concatenation
of the produced chunks, in chunk order, equals the original unit list in order;
no produced chunk is empty; and an empty input yields an empty chunk list. -/
theorem c1_chunking_total_unit_preserving (units : List TranslationUnit)
    (maxTokensPerChunk : Nat) (hpos : 0 < maxTokensPerChunk) :
    (makeChunks maxTokensPerChunk units).flatten = units ∧
    (∀ c ∈ makeChunks maxTokensPerChunk units, c ≠ []) ∧
    (units = [] → makeChunks maxTokensPerChunk units = []) := by
  clear hpos
  have hflat := chunkLoop_flatten maxTokensPerChunk units [] [] 0
  have hne := chunkLoop_chunks_nonempty maxTokensPerChunk units [] [] 0 (by simp)
  constructor
  · unfold makeChunks
    by_cases h2 : (chunkLoop maxTokensPerChunk units [] [] 0).2 ≠ []
    · simp only [if_pos h2]
      simpa using hflat
    · simp only [if_neg h2]
      push_neg at h2
      simpa [h2] using hflat
  · constructor
    · intro c hc
      unfold makeChunks at hc
      by_cases h2 : (chunkLoop maxTokensPerChunk units [] [] 0).2 ≠ []
      · simp only [if_pos h2] at hc
        rcases List.mem_append.mp hc with h1 | hsing
        · exact hne c h1
        · exact List.mem_singleton.mp hsing ▸ h2
      · simp only [if_neg h2] at hc
        exact hne c hc
    · intro hu
      subst hu
      simp [makeChunks, chunkLoop]

theorem c1_witness :
    (0 : Nat) < 1 ∧
    ((makeChunks 1 [⟨"ab", "cd"⟩, ⟨"e", "f"⟩]).flatten = [⟨"ab", "cd"⟩, ⟨"e", "f"⟩] ∧
     (∀ c ∈ makeChunks 1 [⟨"ab", "cd"⟩, ⟨"e", "f"⟩], c ≠ []) ∧
     (([⟨"ab", "cd"⟩, ⟨"e", "f"⟩] : List TranslationUnit) = [] →
       makeChunks 1 [⟨"ab", "cd"⟩, ⟨"e", "f"⟩] = [])) :=
  ⟨by decide, c1_chunking_total_unit_preserving [⟨"ab", "cd"⟩, ⟨"e", "f"⟩] 1 (by decide)⟩

theorem chunkLoop_bounded (maxTok : Nat) :
    ∀ (us : List TranslationUnit) (chunks : List (List TranslationUnit))
      (cur : List TranslationUnit) (tok : Nat),
      tok = sumTokens cur →
      (cur ≠ [] → sumTokens cur ≤ maxTok ∨ ∃ u, cur = [u] ∧ maxTok < unitTokens u) →
      (∀ c ∈ chunks, sumTokens c ≤ maxTok ∨ ∃ u, c = [u] ∧ maxTok < unitTokens u) →
      (∀ c ∈ (chunkLoop maxTok us chunks cur tok).1,
          sumTokens c ≤ maxTok ∨ ∃ u, c = [u] ∧ maxTok < unitTokens u) ∧
      ((chunkLoop maxTok us chunks cur tok).2 ≠ [] →
          sumTokens (chunkLoop maxTok us chunks cur tok).2 ≤ maxTok ∨
          ∃ u, (chunkLoop maxTok us chunks cur tok).2 = [u] ∧ maxTok < unitTokens u) := by
  intro us
  induction us with
  | nil =>
    intro chunks cur tok _ hcur hchunks
    exact ⟨by simpa [chunkLoop] using hchunks, by simpa [chunkLoop] using hcur⟩
  | cons u rest ih =>
    intro chunks cur tok htok hcur hchunks
    by_cases hc : tok + unitTokens u > maxTok ∧ cur ≠ []
    · simp only [chunkLoop, if_pos hc]
      refine ih _ _ _ ?_ ?_ ?_
      · simp [sumTokens]
      · intro _
        by_cases hu : unitTokens u ≤ maxTok
        · left; simpa [sumTokens] using hu
        · right; exact ⟨u, rfl, by omega⟩
      · intro c hcmem
        rcases List.mem_append.mp hcmem with h1 | h2
        · exact hchunks c h1
        · exact List.mem_singleton.mp h2 ▸ hcur hc.2
    · simp only [chunkLoop, if_neg hc]
      refine ih _ _ _ ?_ ?_ hchunks
      · simp [sumTokens, htok]
      · intro _
        rcases not_and_or.mp hc with hle | hemp
        · push_neg at hle
          left
          simpa [sumTokens, htok] using hle
        · push_neg at hemp
          subst hemp
          simp only [sumTokens, List.nil_append, List.map_cons, List.map_nil, List.sum_cons,
            List.sum_nil, Nat.add_zero] at htok ⊢
          by_cases hu : unitTokens u ≤ maxTok
          · left; simpa [sumTokens, htok] using hu
          · right; exact ⟨u, rfl, by omega⟩

/-- Claim C2: every chunk produced by the chunking step has an estimated token
total (sum of `ceil(length(source + target) / 4)` over its units) not exceeding
`maxTokensPerChunk`, except a chunk consisting of a single unit whose own
estimate exceeds the budget; in particular every chunk with two or more units
respects the bound. -/
theorem c2_chunk_token_bound (units : List TranslationUnit)
    (maxTokensPerChunk : Nat) (hpos : 0 < maxTokensPerChunk) :
    ∀ c ∈ makeChunks maxTokensPerChunk units,
      (sumTokens c ≤ maxTokensPerChunk ∨
        ∃ u, c = [u] ∧ maxTokensPerChunk < unitTokens u) ∧
      (2 ≤ c.length → sumTokens c ≤ maxTokensPerChunk) := by
  clear hpos
  have h := chunkLoop_bounded maxTokensPerChunk units [] [] 0 (by simp [sumTokens])
    (by intro h; exact absurd rfl h) (by simp)
  intro c hc
  have hmain : sumTokens c ≤ maxTokensPerChunk ∨
      ∃ u, c = [u] ∧ maxTokensPerChunk < unitTokens u := by
    unfold makeChunks at hc
    by_cases h2 : (chunkLoop maxTokensPerChunk units [] [] 0).2 ≠ []
    · simp only [if_pos h2] at hc
      rcases List.mem_append.mp hc with h1 | hsing
      · exact h.1 c h1
      · exact List.mem_singleton.mp hsing ▸ h.2 h2
    · simp only [if_neg h2] at hc
      exact h.1 c hc
  refine ⟨hmain, ?_⟩
  intro hlen
  rcases hmain with h1 | ⟨u, rfl, _⟩
  · exact h1
  · simp at hlen

theorem c2_witness :
    (0 : Nat) < 1 ∧
    (∀ c ∈ makeChunks 1 [⟨"ab", "cd"⟩, ⟨"e", "f"⟩],
      (sumTokens c ≤ 1 ∨ ∃ u, c = [u] ∧ 1 < unitTokens u) ∧
      (2 ≤ c.length → sumTokens c ≤ 1)) :=
  ⟨by decide, c2_chunk_token_bound [⟨"ab", "cd"⟩, ⟨"e", "f"⟩] 1 (by decide)⟩

theorem string_mk_eq_empty_iff (l : List Char) : String.mk l = "" ↔ l = [] := by
  constructor
  · intro h
    have := congrArg String.data h
    simpa using this
  · intro h; subst h; decide

theorem toLowerCase_ne_empty {s : String} (h : s ≠ "") : toLowerCase s ≠ "" := by
  intro hc
  apply h
  rcases s with ⟨l⟩
  have := (string_mk_eq_empty_iff (l.map Char.toLower)).mp hc
  simp only [List.map_eq_nil_iff] at this
  exact (string_mk_eq_empty_iff l).mpr this

theorem jsTrim_empty : jsTrim "" = "" := by decide

theorem ne_empty_of_jsTrim_ne_empty {s : String} (h : jsTrim s ≠ "") : s ≠ "" := by
  intro hs; subst hs; exact h jsTrim_empty

theorem mapGet_mapSet_self (m : List (String × String)) (k v : String) :
    mapGet (mapSet m k v) k = some v := by
  induction m with
  | nil => simp [mapSet, mapGet]
  | cons kv rest ih =>
    rcases kv with ⟨k0, v0⟩
    by_cases h : k0 = k
    · simp [mapSet, mapGet, h]
    · simp [mapSet, mapGet, h, ih]

theorem mapGet_mapSet_ne (m : List (String × String)) (k k' v : String) (h : k' ≠ k) :
    mapGet (mapSet m k' v) k = mapGet m k := by
  induction m with
  | nil => simp [mapSet, mapGet, h]
  | cons kv rest ih =>
    rcases kv with ⟨k0, v0⟩
    by_cases h0 : k0 = k'
    · subst h0; simp [mapSet, mapGet, h]
    · by_cases h1 : k0 = k
      · simp [mapSet, mapGet, h0, h1, Ne.symm h]
      · simp [mapSet, mapGet, h0, h1, ih]

theorem mapGet_eq_none_iff (m : List (String × String)) (k : String) :
    mapGet m k = none ↔ k ∉ m.map Prod.fst := by
  induction m with
  | nil => simp [mapGet]
  | cons kv rest ih =>
    rcases kv with ⟨k0, v0⟩
    by_cases h : k0 = k
    · simp [mapGet, h]
    · simp [mapGet, h, ih, Ne.symm h]

theorem mem_of_mapGet_eq_some {m : List (String × String)} {k v : String}
    (h : mapGet m k = some v) : (k, v) ∈ m := by
  induction m with
  | nil => simp [mapGet] at h
  | cons kv rest ih =>
    rcases kv with ⟨k0, v0⟩
    by_cases h0 : k0 = k
    · subst h0
      simp [mapGet] at h
      subst h
      exact List.mem_cons_self _ _
    · simp only [mapGet, if_neg h0] at h
      exact List.mem_cons_of_mem _ (ih h)

theorem mapGet_of_mem_nodup {m : List (String × String)} {k v : String}
    (hmem : (k, v) ∈ m) (hnd : (m.map Prod.fst).Nodup) : mapGet m k = some v := by
  induction m with
  | nil => simp at hmem
  | cons kv rest ih =>
    rcases kv with ⟨k0, v0⟩
    simp only [List.map_cons, List.nodup_cons] at hnd
    rcases List.mem_cons.mp hmem with heq | htail
    · rcases Prod.mk.injEq .. ▸ heq with ⟨h1, h2⟩
      simp [mapGet, h1.symm, h2]
    · by_cases h0 : k0 = k
      · exfalso
        apply hnd.1
        subst h0
        exact List.mem_map_of_mem Prod.fst htail
      · simpa [mapGet, h0] using ih htail hnd.2

theorem mem_mapSet {m : List (String × String)} {k0 v0 k v : String}
    (h : (k, v) ∈ mapSet m k0 v0) : (k = k0 ∧ v = v0) ∨ (k, v) ∈ m := by
  induction m with
  | nil =>
    simp only [mapSet, List.mem_singleton] at h
    rcases Prod.mk.injEq .. ▸ h with ⟨h1, h2⟩
    exact Or.inl ⟨h1, h2⟩
  | cons kv rest ih =>
    rcases kv with ⟨k1, v1⟩
    by_cases h1 : k1 = k0
    · subst h1
      simp only [mapSet, if_pos rfl] at h
      rcases List.mem_cons.mp h with heq | htail
      · rcases Prod.mk.injEq .. ▸ heq with ⟨ha, hb⟩
        exact Or.inl ⟨ha, hb⟩
      · exact Or.inr (List.mem_cons_of_mem _ htail)
    · simp only [mapSet, if_neg h1] at h
      rcases List.mem_cons.mp h with heq | htail
      · exact Or.inr (List.mem_cons.mpr (Or.inl heq))
      · rcases ih htail with ha | hb
        · exact Or.inl ha
        · exact Or.inr (List.mem_cons_of_mem _ hb)

theorem keys_mapSet (m : List (String × String)) (k v : String) :
    (mapSet m k v).map Prod.fst =
      if k ∈ m.map Prod.fst then m.map Prod.fst else m.map Prod.fst ++ [k] := by
  induction m with
  | nil => simp [mapSet]
  | cons kv rest ih =>
    rcases kv with ⟨k0, v0⟩
    by_cases h : k0 = k
    · simp [mapSet, h]
    · simp only [mapSet, if_neg h, List.map_cons]
      by_cases hm : k ∈ rest.map Prod.fst
      · simp [ih, hm, Ne.symm h]
      · simp [ih, hm, Ne.symm h]

theorem mapSet_of_not_mem {m : List (String × String)} {k : String} (v : String)
    (h : k ∉ m.map Prod.fst) : mapSet m k v = m ++ [(k, v)] := by
  induction m with
  | nil => simp [mapSet]
  | cons kv rest ih =>
    rcases kv with ⟨k0, v0⟩
    simp only [List.map_cons, List.mem_cons] at h
    push_neg at h
    simp [mapSet, Ne.symm h.1, ih h.2]

theorem string_length_pos {s : String} (h : s ≠ "") : 0 < s.length := by
  rcases s with ⟨l⟩
  cases l with
  | nil => exact absurd (by decide) h
  | cons c cs => simp [String.length]

theorem keys_dedupInsert (m : List (String × String)) (t : TerminologyPair) :
    (dedupInsert m t).map Prod.fst = m.map Prod.fst ∨
    ((dedupInsert m t).map Prod.fst = m.map Prod.fst ++ [toLowerCase t.sourceTerm] ∧
      toLowerCase t.sourceTerm ∉ m.map Prod.fst) := by
  unfold dedupInsert
  by_cases hg : t.sourceTerm = "" ∨ t.targetTerm = ""
  · simp [hg]
  · simp only [if_neg hg]
    rcases hget : mapGet m (toLowerCase t.sourceTerm) with _ | e
    · right
      have hnot := (mapGet_eq_none_iff m (toLowerCase t.sourceTerm)).mp hget
      rw [keys_mapSet, if_neg hnot]
      exact ⟨rfl, hnot⟩
    · have hmem : toLowerCase t.sourceTerm ∈ m.map Prod.fst :=
        List.mem_map_of_mem Prod.fst (mem_of_mapGet_eq_some hget)
      dsimp only
      by_cases hc : e = "" ∨ e.length < t.targetTerm.length
      · left
        rw [if_pos hc, keys_mapSet, if_pos hmem]
      · left
        rw [if_neg hc]

theorem nodup_keys_dedupInsert {m : List (String × String)} (t : TerminologyPair)
    (h : (m.map Prod.fst).Nodup) : ((dedupInsert m t).map Prod.fst).Nodup := by
  rcases keys_dedupInsert m t with heq | ⟨heq, hnot⟩
  · rw [heq]; exact h
  · rw [heq]
    refine List.nodup_append.mpr ⟨h, List.nodup_singleton _, ?_⟩
    intro a ha hmem
    rw [List.mem_singleton] at hmem
    exact hnot (hmem ▸ ha)

theorem dedupFold_nodup_keys (terms : List TerminologyPair) :
    ∀ (m : List (String × String)), (m.map Prod.fst).Nodup →
      ((terms.foldl dedupInsert m).map Prod.fst).Nodup := by
  induction terms with
  | nil => intro m h; simpa using h
  | cons t rest ih =>
    intro m h
    exact ih _ (nodup_keys_dedupInsert t h)

theorem dedupFold_keys_mono (terms : List TerminologyPair) :
    ∀ (m : List (String × String)) {k : String}, k ∈ m.map Prod.fst →
      k ∈ (terms.foldl dedupInsert m).map Prod.fst := by
  induction terms with
  | nil => intro m k h; simpa using h
  | cons t rest ih =>
    intro m k h
    refine ih _ ?_
    rcases keys_dedupInsert m t with heq | ⟨heq, _⟩
    · rw [heq]; exact h
    · rw [heq]; exact List.mem_append_left _ h

theorem dedupFold_key_mem (terms : List TerminologyPair) :
    ∀ (m : List (String × String)) {t : TerminologyPair}, t ∈ terms →
      t.sourceTerm ≠ "" → t.targetTerm ≠ "" →
      toLowerCase t.sourceTerm ∈ (terms.foldl dedupInsert m).map Prod.fst := by
  induction terms with
  | nil => intro m t h; simp at h
  | cons u rest ih =>
    intro m t hmem hs htg
    rcases List.mem_cons.mp hmem with heq | htail
    · subst heq
      refine dedupFold_keys_mono rest _ ?_
      unfold dedupInsert
      rw [if_neg (by simp [hs, htg])]
      rcases hget : mapGet m (toLowerCase t.sourceTerm) with _ | e
      · have hnot := (mapGet_eq_none_iff m (toLowerCase t.sourceTerm)).mp hget
        rw [keys_mapSet, if_neg hnot]
        simp
      · have hmem2 : toLowerCase t.sourceTerm ∈ m.map Prod.fst :=
          List.mem_map_of_mem Prod.fst (mem_of_mapGet_eq_some hget)
        dsimp only
        by_cases hc : e = "" ∨ e.length < t.targetTerm.length
        · rw [if_pos hc, keys_mapSet, if_pos hmem2]; exact hmem2
        · rw [if_neg hc]; exact hmem2
    · exact ih _ htail hs htg

theorem dedupInsert_provenance {m : List (String × String)} {t : TerminologyPair}
    {k v : String} (h : (k, v) ∈ dedupInsert m t) :
    (k, v) ∈ m ∨ (t.sourceTerm ≠ "" ∧ t.targetTerm ≠ "" ∧
      k = toLowerCase t.sourceTerm ∧ v = t.targetTerm) := by
  unfold dedupInsert at h
  by_cases hg : t.sourceTerm = "" ∨ t.targetTerm = ""
  · rw [if_pos hg] at h; exact Or.inl h
  · rw [if_neg hg] at h
    push_neg at hg
    rcases hget : mapGet m (toLowerCase t.sourceTerm) with _ | e
    · rw [hget] at h
      rcases mem_mapSet h with ⟨h1, h2⟩ | hm
      · exact Or.inr ⟨hg.1, hg.2, h1, h2⟩
      · exact Or.inl hm
    · rw [hget] at h
      dsimp only at h
      by_cases hc : e = "" ∨ e.length < t.targetTerm.length
      · rw [if_pos hc] at h
        rcases mem_mapSet h with ⟨h1, h2⟩ | hm
        · exact Or.inr ⟨hg.1, hg.2, h1, h2⟩
        · exact Or.inl hm
      · rw [if_neg hc] at h
        exact Or.inl h

theorem dedupFold_provenance (terms : List TerminologyPair) :
    ∀ (m : List (String × String)) {k v : String},
      (k, v) ∈ terms.foldl dedupInsert m →
      (k, v) ∈ m ∨ ∃ t ∈ terms, t.sourceTerm ≠ "" ∧ t.targetTerm ≠ "" ∧
        k = toLowerCase t.sourceTerm ∧ v = t.targetTerm := by
  induction terms with
  | nil => intro m k v h; exact Or.inl (by simpa using h)
  | cons t rest ih =>
    intro m k v h
    rcases ih _ h with hins | ⟨u, humem, h1, h2, h3, h4⟩
    · rcases dedupInsert_provenance hins with hm | ⟨h1, h2, h3, h4⟩
      · exact Or.inl hm
      · exact Or.inr ⟨t, List.mem_cons_self _ _, h1, h2, h3, h4⟩
    · exact Or.inr ⟨u, List.mem_cons_of_mem _ humem, h1, h2, h3, h4⟩

theorem mapGet_dedupInsert_self {t : TerminologyPair} (m : List (String × String))
    (hs : t.sourceTerm ≠ "") (htg : t.targetTerm ≠ "") :
    mapGet (dedupInsert m t) (toLowerCase t.sourceTerm) =
      optStep (mapGet m (toLowerCase t.sourceTerm)) t.targetTerm := by
  unfold dedupInsert
  rw [if_neg (by simp [hs, htg])]
  rcases hget : mapGet m (toLowerCase t.sourceTerm) with _ | e
  · simp [optStep, mapGet_mapSet_self]
  · dsimp only
    by_cases hc : e = "" ∨ e.length < t.targetTerm.length
    · rw [if_pos hc]
      simp [optStep, mapGet_mapSet_self, hc]
    · rw [if_neg hc]
      simp [optStep, hget, hc]

theorem mapGet_dedupInsert_ne {t : TerminologyPair} (m : List (String × String))
    {k : String} (hk : toLowerCase t.sourceTerm ≠ k) :
    mapGet (dedupInsert m t) k = mapGet m k := by
  unfold dedupInsert
  by_cases hg : t.sourceTerm = "" ∨ t.targetTerm = ""
  · rw [if_pos hg]
  · rw [if_neg hg]
    rcases hget : mapGet m (toLowerCase t.sourceTerm) with _ | e
    · exact mapGet_mapSet_ne m k _ _ hk
    · dsimp only
      by_cases hc : e = "" ∨ e.length < t.targetTerm.length
      · rw [if_pos hc]
        exact mapGet_mapSet_ne m k _ _ hk
      · rw [if_neg hc]

theorem dedupFold_get (k : String) (terms : List TerminologyPair) :
    ∀ (m : List (String × String)),
      (∀ t ∈ terms, t.sourceTerm ≠ "" ∧ t.targetTerm ≠ "") →
      mapGet (terms.foldl dedupInsert m) k =
        ((terms.filter (fun t => toLowerCase t.sourceTerm == k)).map
          TerminologyPair.targetTerm).foldl optStep (mapGet m k) := by
  induction terms with
  | nil => intro m _; simp
  | cons t rest ih =>
    intro m h
    have ht := h t (List.mem_cons_self _ _)
    have hrest : ∀ u ∈ rest, u.sourceTerm ≠ "" ∧ u.targetTerm ≠ "" :=
      fun u hu => h u (List.mem_cons_of_mem _ hu)
    by_cases hk : toLowerCase t.sourceTerm = k
    · have hfil : (t :: rest).filter (fun t => toLowerCase t.sourceTerm == k) =
        t :: rest.filter (fun t => toLowerCase t.sourceTerm == k) := by
        simp [List.filter_cons, hk]
      rw [List.foldl_cons, ih _ hrest, hfil, List.map_cons, List.foldl_cons]
      rw [← hk, mapGet_dedupInsert_self m ht.1 ht.2]
    · have hfil : (t :: rest).filter (fun t => toLowerCase t.sourceTerm == k) =
        rest.filter (fun t => toLowerCase t.sourceTerm == k) := by
        simp [List.filter_cons, hk]
      rw [List.foldl_cons, ih _ hrest, hfil, mapGet_dedupInsert_ne m hk]

theorem foldl_optStep_some (ts : List String) :
    ∀ (e : String), e ≠ "" → (∀ t ∈ ts, t ≠ "") →
      ts.foldl optStep (some e) =
        some (ts.foldl (fun acc t => if acc.length < t.length then t else acc) e) ∧
      ts.foldl (fun acc t => if acc.length < t.length then t else acc) e ≠ "" := by
  induction ts with
  | nil => intro e he _; exact ⟨rfl, he⟩
  | cons t rest ih =>
    intro e he h
    have htne : t ≠ "" := h t (List.mem_cons_self _ _)
    have hrest : ∀ u ∈ rest, u ≠ "" := fun u hu => h u (List.mem_cons_of_mem _ hu)
    by_cases hlt : e.length < t.length
    · have hstep : optStep (some e) t = some t := by simp [optStep, hlt]
      simp only [List.foldl_cons, hstep, if_pos hlt]
      exact ih t htne hrest
    · have hstep : optStep (some e) t = some e := by simp [optStep, he, hlt]
      simp only [List.foldl_cons, hstep, if_neg hlt]
      exact ih e he hrest

theorem foldl_optStep_none {ts : List String} (hne : ts ≠ [])
    (h : ∀ t ∈ ts, t ≠ "") :
    ts.foldl optStep none =
      some (ts.foldl (fun acc t => if acc.length < t.length then t else acc) "") := by
  cases ts with
  | nil => exact absurd rfl hne
  | cons t rest =>
    have htne : t ≠ "" := h t (List.mem_cons_self _ _)
    have hrest : ∀ u ∈ rest, u ≠ "" := fun u hu => h u (List.mem_cons_of_mem _ hu)
    have h0 : ("" : String).length < t.length := by
      have := string_length_pos htne
      simpa using this
    simp only [List.foldl_cons, optStep, if_pos h0]
    exact (foldl_optStep_some rest t htne hrest).1

theorem toLowerCase_empty : toLowerCase "" = "" := by decide

theorem restoreCasing_spec {l : List TerminologyPair} {k : String} (v : String)
    (hprov : ∃ t ∈ l, t.sourceTerm ≠ "" ∧ toLowerCase t.sourceTerm = k) :
    ∃ t0, l.find? (fun t => toLowerCase t.sourceTerm == k) = some t0 ∧
      t0 ∈ l ∧ t0.sourceTerm ≠ "" ∧ toLowerCase t0.sourceTerm = k ∧
      restoreCasing l (k, v) = ⟨t0.sourceTerm, v⟩ := by
  rcases hprov with ⟨t, htl, hts, htk⟩
  have hk : k ≠ "" := htk ▸ toLowerCase_ne_empty hts
  have hsome : (l.find? (fun t => toLowerCase t.sourceTerm == k)).isSome :=
    List.find?_isSome.mpr ⟨t, htl, by simp [htk]⟩
  rcases Option.isSome_iff_exists.mp hsome with ⟨t0, ht0⟩
  have hpred := List.find?_some ht0
  have ht0k : toLowerCase t0.sourceTerm = k := by simpa using hpred
  have ht0s : t0.sourceTerm ≠ "" := by
    intro hemp
    exact hk (by rw [← ht0k, hemp, toLowerCase_empty])
  refine ⟨t0, ht0, List.mem_of_find?_eq_some ht0, ht0s, ht0k, ?_⟩
  simp [restoreCasing, ht0, ht0s]

theorem deduplicateTerms_mem_struct {l : List TerminologyPair} {p : TerminologyPair}
    (hp : p ∈ deduplicateTerms l) :
    ∃ k v t0, (k, v) ∈ l.foldl dedupInsert [] ∧ k ≠ "" ∧ v ≠ "" ∧
      l.find? (fun t => toLowerCase t.sourceTerm == k) = some t0 ∧
      t0 ∈ l ∧ t0.sourceTerm ≠ "" ∧ toLowerCase t0.sourceTerm = k ∧
      p = ⟨t0.sourceTerm, v⟩ ∧
      ∃ t ∈ l, t.sourceTerm ≠ "" ∧ t.targetTerm ≠ "" ∧
        k = toLowerCase t.sourceTerm ∧ v = t.targetTerm := by
  unfold deduplicateTerms at hp
  rcases List.mem_map.mp hp with ⟨kv, hkvmem, hkveq⟩
  rcases List.mem_filter.mp hkvmem with ⟨hkvfold, hkvne⟩
  rcases kv with ⟨k, v⟩
  simp only [Bool.and_eq_true, bne_iff_ne, ne_eq] at hkvne
  have hprov := dedupFold_provenance l [] hkvfold
  rcases hprov with habs | ⟨t, htl, hts, httg, htk, htv⟩
  · simp at habs
  rcases restoreCasing_spec v ⟨t, htl, hts, htk.symm⟩ with
    ⟨t0, hfind, ht0l, ht0s, ht0k, hrc⟩
  exact ⟨k, v, t0, hkvfold, hkvne.1, hkvne.2, hfind, ht0l, ht0s, ht0k,
    hkveq ▸ hrc, t, htl, hts, httg, htk, htv⟩

theorem deduplicateTerms_entry {l : List TerminologyPair} {k v : String}
    (hkv : (k, v) ∈ l.foldl dedupInsert []) (hk : k ≠ "") (hv : v ≠ "") :
    restoreCasing l (k, v) ∈ deduplicateTerms l := by
  unfold deduplicateTerms
  refine List.mem_map_of_mem _ (List.mem_filter.mpr ⟨hkv, ?_⟩)
  simp [hk, hv]

theorem validTerm_iff (t : TerminologyPair) :
    validTerm t = true ↔ jsTrim t.sourceTerm ≠ "" ∧ jsTrim t.targetTerm ≠ "" := by
  simp [validTerm]

theorem dedup_valid {l : List TerminologyPair} (h : ∀ t ∈ l, validTerm t = true) :
    ∀ p ∈ deduplicateTerms l, validTerm p = true := by
  intro p hp
  rcases deduplicateTerms_mem_struct hp with
    ⟨k, v, t0, _, _, _, _, ht0l, _, _, hpeq, t, htl, _, _, _, htv⟩
  rcases (validTerm_iff t0).mp (h t0 ht0l) with ⟨h1, _⟩
  rcases (validTerm_iff t).mp (h t htl) with ⟨_, h2⟩
  rw [validTerm_iff, hpeq]
  exact ⟨h1, htv ▸ h2⟩

theorem dedup_pairwise (l : List TerminologyPair) :
    (deduplicateTerms l).Pairwise
      (fun a b => toLowerCase a.sourceTerm ≠ toLowerCase b.sourceTerm) := by
  have hkey : ∀ kv ∈ (l.foldl dedupInsert []).filter (fun kv => kv.1 != "" && kv.2 != ""),
      toLowerCase (restoreCasing l kv).sourceTerm = kv.1 := by
    intro kv hkv
    rcases List.mem_filter.mp hkv with ⟨hfold, hne⟩
    rcases kv with ⟨k, v⟩
    simp only [Bool.and_eq_true, bne_iff_ne, ne_eq] at hne
    rcases dedupFold_provenance l [] hfold with habs | ⟨t, htl, hts, _, htk, _⟩
    · simp at habs
    rcases restoreCasing_spec v ⟨t, htl, hts, htk.symm⟩ with
      ⟨t0, _, _, _, ht0k, hrc⟩
    rw [hrc]
    exact ht0k
  have hnodup : ((l.foldl dedupInsert []).map Prod.fst).Nodup :=
    dedupFold_nodup_keys l [] (by simp)
  have hsub : ((l.foldl dedupInsert []).filter
      (fun kv => kv.1 != "" && kv.2 != "")).Sublist (l.foldl dedupInsert []) :=
    List.filter_sublist _
  have hnodup2 : (((l.foldl dedupInsert []).filter
      (fun kv => kv.1 != "" && kv.2 != "")).map Prod.fst).Nodup :=
    hnodup.sublist (hsub.map Prod.fst)
  have hpw : ((l.foldl dedupInsert []).filter
      (fun kv => kv.1 != "" && kv.2 != "")).Pairwise (fun a b => a.1 ≠ b.1) :=
    (List.pairwise_map.mp hnodup2)
  unfold deduplicateTerms
  refine List.pairwise_map.mpr ?_
  refine hpw.imp_of_mem ?_
  intro a b ha hb hne
  rw [hkey a ha, hkey b hb]
  exact hne

theorem dedupFold_of_fresh (l : List TerminologyPair) :
    ∀ (m : List (String × String)),
      (∀ t ∈ l, t.sourceTerm ≠ "" ∧ t.targetTerm ≠ "") →
      l.Pairwise (fun a b => toLowerCase a.sourceTerm ≠ toLowerCase b.sourceTerm) →
      (∀ t ∈ l, toLowerCase t.sourceTerm ∉ m.map Prod.fst) →
      l.foldl dedupInsert m =
        m ++ l.map (fun t => (toLowerCase t.sourceTerm, t.targetTerm)) := by
  induction l with
  | nil => intro m _ _ _; simp
  | cons t rest ih =>
    intro m hval hpw hfresh
    have ht := hval t (List.mem_cons_self _ _)
    have hins : dedupInsert m t = m ++ [(toLowerCase t.sourceTerm, t.targetTerm)] := by
      unfold dedupInsert
      rw [if_neg (by simp [ht.1, ht.2])]
      have hnone : mapGet m (toLowerCase t.sourceTerm) = none :=
        (mapGet_eq_none_iff m _).mpr (hfresh t (List.mem_cons_self _ _))
      rw [hnone]
      exact mapSet_of_not_mem _ (hfresh t (List.mem_cons_self _ _))
    rw [List.foldl_cons, hins]
    rw [ih _ (fun u hu => hval u (List.mem_cons_of_mem _ hu)) hpw.of_cons ?_]
    · simp
    · intro u hu
      simp only [List.map_append, List.mem_append]
      push_neg
      refine ⟨hfresh u (List.mem_cons_of_mem _ hu), ?_⟩
      have hne := (List.pairwise_cons.mp hpw).1 u hu
      simp [hne.symm]

theorem find?_key_of_pairwise {l : List TerminologyPair}
    (hpw : l.Pairwise (fun a b => toLowerCase a.sourceTerm ≠ toLowerCase b.sourceTerm))
    {t : TerminologyPair} (ht : t ∈ l) :
    l.find? (fun u => toLowerCase u.sourceTerm == toLowerCase t.sourceTerm) = some t := by
  induction l with
  | nil => simp at ht
  | cons u rest ih =>
    rcases List.mem_cons.mp ht with heq | htail
    · subst heq
      exact List.find?_cons_of_pos _ (by simp)
    · have hne := (List.pairwise_cons.mp hpw).1 t htail
      rw [List.find?_cons_of_neg _ (by simp [hne])]
      exact ih hpw.of_cons htail

theorem dedup_fixpoint {l : List TerminologyPair}
    (hval : ∀ t ∈ l, t.sourceTerm ≠ "" ∧ t.targetTerm ≠ "")
    (hpw : l.Pairwise (fun a b => toLowerCase a.sourceTerm ≠ toLowerCase b.sourceTerm)) :
    deduplicateTerms l = l := by
  have hunfold : deduplicateTerms l =
      ((l.foldl dedupInsert []).filter (fun kv => kv.1 != "" && kv.2 != "")).map
        (restoreCasing l) := rfl
  rw [hunfold]
  rw [dedupFold_of_fresh l [] hval hpw (by simp)]
  rw [List.nil_append]
  rw [List.filter_eq_self.mpr ?_]
  · rw [List.map_map]
    refine (List.map_congr_left ?_).trans (List.map_id' l)
    intro t htl
    have ht := hval t htl
    simp only [Function.comp_apply]
    rcases restoreCasing_spec t.targetTerm ⟨t, htl, ht.1, rfl⟩ with
      ⟨t0, hfind, _, _, _, hrc⟩
    have hfind2 := find?_key_of_pairwise hpw htl
    rw [hfind2] at hfind
    rcases Option.some.injEq .. ▸ hfind with rfl
    rw [hrc]
  · intro kv hkv
    rcases List.mem_map.mp hkv with ⟨t, htl, hteq⟩
    have ht := hval t htl
    rw [← hteq]
    simp [toLowerCase_ne_empty ht.1, ht.2]

/-- Claim C5: on a list of pairs with non-empty fields, deduplication keeps,
for each case-insensitive source group, the target term selected by the
strict longest-wins/first-seen-ties rule (`specBestTarget`), and emits as
source term the original-casing source of the first input entry whose
lowercased form equals the group key; every input pair's group is
represented in the output. -/
theorem c5_dedup_selection (terms : List TerminologyPair)
    (h : ∀ t ∈ terms, t.sourceTerm ≠ "" ∧ t.targetTerm ≠ "") :
    (∀ p ∈ deduplicateTerms terms,
      (∃ t0, terms.find?
          (fun t => toLowerCase t.sourceTerm == toLowerCase p.sourceTerm) = some t0 ∧
        p.sourceTerm = t0.sourceTerm) ∧
      p.targetTerm = specBestTarget terms (toLowerCase p.sourceTerm)) ∧
    (∀ t ∈ terms, ∃ p ∈ deduplicateTerms terms,
      toLowerCase p.sourceTerm = toLowerCase t.sourceTerm) := by
  constructor
  · intro p hp
    rcases deduplicateTerms_mem_struct hp with
      ⟨k, v, t0, hkv, hk, hv, hfind, ht0l, ht0s, ht0k, hpeq, t, htl, hts, httg, htk, htv⟩
    have hpk : toLowerCase p.sourceTerm = k := by rw [hpeq]; exact ht0k
    constructor
    · exact ⟨t0, by rw [hpk]; exact hfind, by rw [hpeq]⟩
    · rw [hpk]
      have hnodup : ((terms.foldl dedupInsert []).map Prod.fst).Nodup :=
        dedupFold_nodup_keys terms [] (by simp)
      have hget : mapGet (terms.foldl dedupInsert []) k = some v :=
        mapGet_of_mem_nodup hkv hnodup
      rw [dedupFold_get k terms [] h] at hget
      have hgroupne : (terms.filter (fun t => toLowerCase t.sourceTerm == k)).map
          TerminologyPair.targetTerm ≠ [] := by
        have : t ∈ terms.filter (fun t => toLowerCase t.sourceTerm == k) :=
          List.mem_filter.mpr ⟨htl, by simp [htk]⟩
        exact List.ne_nil_of_mem (List.mem_map_of_mem _ this)
      have hgroupval : ∀ s ∈ (terms.filter (fun t => toLowerCase t.sourceTerm == k)).map
          TerminologyPair.targetTerm, s ≠ "" := by
        intro s hs
        rcases List.mem_map.mp hs with ⟨u, humem, hueq⟩
        have := h u (List.mem_filter.mp humem).1
        exact hueq ▸ this.2
      rw [show mapGet [] k = none from rfl] at hget
      rw [foldl_optStep_none hgroupne hgroupval] at hget
      simp only [Option.some.injEq] at hget
      rw [hpeq]
      exact hget.symm
  · intro t htl
    have ht := h t htl
    have hkeymem : toLowerCase t.sourceTerm ∈
        (terms.foldl dedupInsert []).map Prod.fst :=
      dedupFold_key_mem terms [] htl ht.1 ht.2
    rcases List.mem_map.mp hkeymem with ⟨kv, hkvmem, hkveq⟩
    rcases kv with ⟨k, v⟩
    simp only at hkveq
    subst hkveq
    have hk : toLowerCase t.sourceTerm ≠ "" := toLowerCase_ne_empty ht.1
    have hv : v ≠ "" := by
      rcases dedupFold_provenance terms [] hkvmem with habs | ⟨u, _, _, hutg, _, huv⟩
      · simp at habs
      · exact huv ▸ hutg
    refine ⟨restoreCasing terms (toLowerCase t.sourceTerm, v),
      deduplicateTerms_entry hkvmem hk hv, ?_⟩
    rcases restoreCasing_spec v ⟨t, htl, ht.1, rfl⟩ with ⟨t0, _, _, _, ht0k, hrc⟩
    rw [hrc]
    exact ht0k

theorem c5_witness :
    (∀ t ∈ ([⟨"cloud", "nube"⟩, ⟨"cloud", "computación en la nube"⟩] :
        List TerminologyPair), t.sourceTerm ≠ "" ∧ t.targetTerm ≠ "") ∧
    ((∀ p ∈ deduplicateTerms [⟨"cloud", "nube"⟩, ⟨"cloud", "computación en la nube"⟩],
      (∃ t0, ([⟨"cloud", "nube"⟩, ⟨"cloud", "computación en la nube"⟩] :
          List TerminologyPair).find?
          (fun t => toLowerCase t.sourceTerm == toLowerCase p.sourceTerm) = some t0 ∧
        p.sourceTerm = t0.sourceTerm) ∧
      p.targetTerm = specBestTarget [⟨"cloud", "nube"⟩, ⟨"cloud", "computación en la nube"⟩]
        (toLowerCase p.sourceTerm)) ∧
    (∀ t ∈ ([⟨"cloud", "nube"⟩, ⟨"cloud", "computación en la nube"⟩] :
        List TerminologyPair),
      ∃ p ∈ deduplicateTerms [⟨"cloud", "nube"⟩, ⟨"cloud", "computación en la nube"⟩],
        toLowerCase p.sourceTerm = toLowerCase t.sourceTerm)) :=
  ⟨by decide, c5_dedup_selection _ (by decide)⟩

/-- Claim C6: the output of deduplication never contains two pairs whose
source terms agree case-insensitively, and the two pairs
`{API, interface}` and `{api, interfaz}` collapse to a single entry. -/
theorem c6_dedup_case_insensitive (terms : List TerminologyPair) :
    (deduplicateTerms terms).Pairwise
      (fun a b => toLowerCase a.sourceTerm ≠ toLowerCase b.sourceTerm) ∧
    (deduplicateTerms [⟨"API", "interface"⟩, ⟨"api", "interfaz"⟩]).length = 1 :=
  ⟨dedup_pairwise terms, by decide⟩

/-- Claim C7: the aggregation step (validity filter followed by
deduplication) is idempotent: applied to its own output it returns that
output unchanged. -/
theorem c7_aggregate_idempotent (terms : List TerminologyPair) :
    aggregate (aggregate terms) = aggregate terms := by
  unfold aggregate
  have hvalid : ∀ p ∈ deduplicateTerms (terms.filter validTerm), validTerm p = true :=
    dedup_valid (fun t ht => (List.mem_filter.mp ht).2)
  rw [List.filter_eq_self.mpr hvalid]
  refine dedup_fixpoint ?_ (dedup_pairwise _)
  intro t ht
  have hv := (validTerm_iff t).mp (hvalid t ht)
  exact ⟨ne_empty_of_jsTrim_ne_empty hv.1, ne_empty_of_jsTrim_ne_empty hv.2⟩

theorem chunkRetryGo_attempts_le (call : Nat → Except Unit (List TerminologyPair)) :
    ∀ (retriesLeft retryCount : Nat),
      (chunkRetryGo call retryCount retriesLeft).attempts ≤ retriesLeft + 1 := by
  intro n
  induction n with
  | zero =>
    intro rc
    rcases hc : call rc with u | ts
    · simp [chunkRetryGo, hc]
    · by_cases h : 0 < ts.length <;> simp [chunkRetryGo, hc, h]
  | succ n ih =>
    intro rc
    rcases hc : call rc with u | ts
    · have := ih (rc + 1)
      simp only [chunkRetryGo, hc]
      omega
    · by_cases h : 0 < ts.length
      · simp [chunkRetryGo, hc, h]
      · have := ih (rc + 1)
        simp only [chunkRetryGo, hc, if_neg h]
        omega

theorem chunkRetry_eq_specRetry (call : Nat → Except Unit (List TerminologyPair)) :
    chunkRetry call = specRetry call := by
  unfold chunkRetry specRetry
  rcases h0 : call 0 with u0 | ts0
  · rcases h1 : call 1 with u1 | ts1
    · rcases h2 : call 2 with u2 | ts2
      · simp [chunkRetryGo, h0, h1, h2, attemptSucceeds, resultTerms]
      · by_cases hl2 : 0 < ts2.length <;>
          simp [chunkRetryGo, h0, h1, h2, hl2, attemptSucceeds, resultTerms]
    · by_cases hl1 : 0 < ts1.length
      · simp [chunkRetryGo, h0, h1, hl1, attemptSucceeds, resultTerms]
      · rcases h2 : call 2 with u2 | ts2
        · simp [chunkRetryGo, h0, h1, h2, hl1, attemptSucceeds, resultTerms]
        · by_cases hl2 : 0 < ts2.length <;>
            simp [chunkRetryGo, h0, h1, h2, hl1, hl2, attemptSucceeds, resultTerms]
  · by_cases hl0 : 0 < ts0.length
    · simp [chunkRetryGo, h0, hl0, attemptSucceeds, resultTerms]
    · rcases h1 : call 1 with u1 | ts1
      · rcases h2 : call 2 with u2 | ts2
        · simp [chunkRetryGo, h0, h1, h2, hl0, attemptSucceeds, resultTerms]
        · by_cases hl2 : 0 < ts2.length <;>
            simp [chunkRetryGo, h0, h1, h2, hl0, hl2, attemptSucceeds, resultTerms]
      · by_cases hl1 : 0 < ts1.length
        · simp [chunkRetryGo, h0, h1, hl0, hl1, attemptSucceeds, resultTerms]
        · rcases h2 : call 2 with u2 | ts2
          · simp [chunkRetryGo, h0, h1, h2, hl0, hl1, attemptSucceeds, resultTerms]
          · by_cases hl2 : 0 < ts2.length <;>
              simp [chunkRetryGo, h0, h1, h2, hl0, hl1, hl2, attemptSucceeds, resultTerms]

theorem processChunksGo_attempts
    (oracle : Nat → Nat → String → Except Unit (List TerminologyPair))
    (tmxData : TmxData) (datasetInfo : String) (totalUnits : Nat) :
    ∀ (cs : List (List TranslationUnit)) (i : Nat) (s : DriverState),
      (processChunksGo oracle tmxData datasetInfo totalUnits i cs s).attemptsPerChunk =
        s.attemptsPerChunk ++
          (outcomesFrom oracle tmxData datasetInfo i cs).map RetryOutcome.attempts := by
  intro cs
  induction cs with
  | nil => intro i s; simp [processChunksGo, outcomesFrom]
  | cons c rest ih =>
    intro i s
    simp only [processChunksGo, outcomesFrom, ih, processOneChunk, List.map_cons]
    simp [chunkOutcome, chunkRetry]

theorem outcomesFrom_mem
    {oracle : Nat → Nat → String → Except Unit (List TerminologyPair)}
    {tmxData : TmxData} {datasetInfo : String} :
    ∀ (cs : List (List TranslationUnit)) (i : Nat) {r : RetryOutcome},
      r ∈ outcomesFrom oracle tmxData datasetInfo i cs →
      ∃ j c, r = chunkOutcome oracle tmxData datasetInfo j c := by
  intro cs
  induction cs with
  | nil => intro i r h; simp [outcomesFrom] at h
  | cons c rest ih =>
    intro i r h
    rcases List.mem_cons.mp h with heq | htail
    · exact ⟨i, c, heq⟩
    · exact ih _ htail

/-- Claim C3 (amended): per chunk, the driver makes at most 3 extraction
attempts; it retries exactly when the call throws or returns zero pairs while
retries remain; and the backoff before the k-th re-attempt (k = 1, 2) is
`1000 * 2^k` ms — 2000 ms before the first retry and 4000 ms before the
second, because the source increments `retryCount` before computing the
wait.  `specRetry` transcribes this policy; the retry loop realises it. -/
theorem c3_retry_policy_amended (call : Nat → Except Unit (List TerminologyPair))
    (oracle : Nat → Nat → String → Except Unit (List TerminologyPair))
    (maxTokensPerChunk : Nat) (tmxData : TmxData) (datasetInfo : String) :
    chunkRetry call = specRetry call ∧
    (chunkRetry call).attempts ≤ 3 ∧
    ∀ a ∈ (processTmxInChunks oracle maxTokensPerChunk tmxData datasetInfo).attemptsPerChunk,
      a ≤ 3 := by
  refine ⟨chunkRetry_eq_specRetry call, chunkRetryGo_attempts_le call 2 0, ?_⟩
  intro a ha
  have hunfold : (processTmxInChunks oracle maxTokensPerChunk tmxData datasetInfo).attemptsPerChunk =
      (processChunksGo oracle tmxData datasetInfo tmxData.translationUnits.length 0
        (makeChunks maxTokensPerChunk tmxData.translationUnits)
        initialDriverState).attemptsPerChunk := rfl
  rw [hunfold, processChunksGo_attempts] at ha
  simp only [initialDriverState, List.nil_append] at ha
  rcases List.mem_map.mp ha with ⟨r, hrmem, hreq⟩
  subst hreq
  rcases outcomesFrom_mem _ 0 hrmem with ⟨j, c, rfl⟩
  exact chunkRetryGo_attempts_le _ 2 0

theorem c3_counterexample :
    (chunkRetry alwaysThrow).sleeps = [2000, 4000] ∧
    (chunkRetry alwaysThrow).sleeps ≠ [1000, 2000] := by decide

theorem makeChunks_flatten (maxTok : Nat) (units : List TranslationUnit) :
    (makeChunks maxTok units).flatten = units := by
  have hflat := chunkLoop_flatten maxTok units [] [] 0
  unfold makeChunks
  by_cases h2 : (chunkLoop maxTok units [] [] 0).2 ≠ []
  · simp only [if_pos h2]
    simpa using hflat
  · simp only [if_neg h2]
    push_neg at h2
    simpa [h2] using hflat

theorem makeChunks_sum_lengths (maxTok : Nat) (units : List TranslationUnit) :
    ((makeChunks maxTok units).map List.length).sum = units.length := by
  rw [← List.length_flatten, makeChunks_flatten]

theorem makeChunks_ne_nil (maxTok : Nat) {units : List TranslationUnit}
    (h : units ≠ []) : makeChunks maxTok units ≠ [] := by
  intro hc
  apply h
  rw [← makeChunks_flatten maxTok units, hc]
  rfl

theorem progressValue_le_100 (p t : Nat) : progressValue p t ≤ 100 :=
  min_le_left _ _

theorem progressValue_mono {p q : Nat} (t : Nat) (h : p ≤ q) :
    progressValue p t ≤ progressValue q t := by
  unfold progressValue
  exact min_le_min (le_refl _) (Nat.div_le_div_right (Nat.mul_le_mul_right _ h))

theorem progressValue_total {t : Nat} (h : 0 < t) : progressValue t t = 100 := by
  unfold progressValue
  rw [Nat.mul_div_cancel_left 100 h]
  exact min_self 100

theorem prefixProgress_length (t : Nat) :
    ∀ (ns : List Nat) (p : Nat), (prefixProgress t ns p).length = ns.length := by
  intro ns
  induction ns with
  | nil => intro p; simp [prefixProgress]
  | cons n rest ih => intro p; simp [prefixProgress, ih]

theorem prefixProgress_le (t : Nat) :
    ∀ (ns : List Nat) (p : Nat), ∀ x ∈ prefixProgress t ns p, x ≤ 100 := by
  intro ns
  induction ns with
  | nil => intro p x hx; simp [prefixProgress] at hx
  | cons n rest ih =>
    intro p x hx
    rcases List.mem_cons.mp hx with heq | htail
    · exact heq ▸ progressValue_le_100 _ _
    · exact ih _ x htail

theorem prefixProgress_chain (t : Nat) :
    ∀ (ns : List Nat) (p : Nat), List.Chain' (· ≤ ·) (prefixProgress t ns p) := by
  intro ns
  induction ns with
  | nil => intro p; simp [prefixProgress]
  | cons n rest ih =>
    intro p
    rw [prefixProgress]
    refine List.chain'_cons'.mpr ⟨?_, ih (p + n)⟩
    intro q hq
    cases rest with
    | nil => simp [prefixProgress] at hq
    | cons m rest2 =>
      simp only [prefixProgress, List.head?_cons, Option.mem_def,
        Option.some.injEq] at hq
      subst hq
      exact progressValue_mono t (by omega)

theorem prefixProgress_getLast (t : Nat) :
    ∀ (ns : List Nat) (p : Nat), ns ≠ [] →
      (prefixProgress t ns p).getLast? = some (progressValue (p + ns.sum) t) := by
  intro ns
  induction ns with
  | nil => intro p h; exact absurd rfl h
  | cons n rest ih =>
    intro p _
    cases rest with
    | nil => simp [prefixProgress]
    | cons m rest2 =>
      have hih := ih (p + n) (by simp)
      rw [prefixProgress]
      rw [show prefixProgress t (m :: rest2) (p + n) =
        progressValue (p + n + m) t :: prefixProgress t rest2 (p + n + m) from rfl]
      rw [List.getLast?_cons_cons]
      rw [show progressValue (p + n + m) t :: prefixProgress t rest2 (p + n + m) =
        prefixProgress t (m :: rest2) (p + n) from rfl]
      rw [hih]
      have harg : p + n + (m :: rest2).sum = p + (n :: m :: rest2).sum := by
        simp only [List.sum_cons]
        omega
      rw [harg]

theorem processChunksGo_progress
    (oracle : Nat → Nat → String → Except Unit (List TerminologyPair))
    (tmxData : TmxData) (datasetInfo : String) (totalUnits : Nat) :
    ∀ (cs : List (List TranslationUnit)) (i : Nat) (s : DriverState),
      (processChunksGo oracle tmxData datasetInfo totalUnits i cs s).progress =
        s.progress ++ prefixProgress totalUnits (cs.map List.length) s.processedUnits ∧
      (processChunksGo oracle tmxData datasetInfo totalUnits i cs s).processedUnits =
        s.processedUnits + (cs.map List.length).sum := by
  intro cs
  induction cs with
  | nil => intro i s; simp [processChunksGo, prefixProgress]
  | cons c rest ih =>
    intro i s
    simp only [processChunksGo]
    have h := ih (i + 1) (processOneChunk oracle tmxData datasetInfo totalUnits i c s)
    constructor
    · rw [h.1]
      simp [processOneChunk, prefixProgress, List.append_assoc]
    · rw [h.2]
      simp only [processOneChunk, List.map_cons, List.sum_cons]
      omega

theorem processChunksGo_allTerms
    (oracle : Nat → Nat → String → Except Unit (List TerminologyPair))
    (tmxData : TmxData) (datasetInfo : String) (totalUnits : Nat) :
    ∀ (cs : List (List TranslationUnit)) (i : Nat) (s : DriverState),
      (processChunksGo oracle tmxData datasetInfo totalUnits i cs s).allTerms =
        s.allTerms ++
          ((outcomesFrom oracle tmxData datasetInfo i cs).map RetryOutcome.terms).flatten := by
  intro cs
  induction cs with
  | nil => intro i s; simp [processChunksGo, outcomesFrom]
  | cons c rest ih =>
    intro i s
    simp only [processChunksGo, outcomesFrom, List.map_cons, List.flatten_cons, ih]
    simp [processOneChunk, chunkOutcome, chunkRetry]

theorem processChunksGo_failed
    (oracle : Nat → Nat → String → Except Unit (List TerminologyPair))
    (tmxData : TmxData) (datasetInfo : String) (totalUnits : Nat) :
    ∀ (cs : List (List TranslationUnit)) (i : Nat) (s : DriverState),
      (processChunksGo oracle tmxData datasetInfo totalUnits i cs s).failedChunks =
        s.failedChunks +
          ((outcomesFrom oracle tmxData datasetInfo i cs).filter RetryOutcome.failed).length := by
  intro cs
  induction cs with
  | nil => intro i s; simp [processChunksGo, outcomesFrom]
  | cons c rest ih =>
    intro i s
    simp only [processChunksGo, outcomesFrom, List.filter_cons, ih, processOneChunk]
    cases hf : (chunkRetry (fun attempt => oracle i attempt
        (generatePrompt { tmxData with translationUnits := c } datasetInfo))).failed
    · simp [chunkOutcome, hf]
    · simp [chunkOutcome, hf]
      omega

theorem processChunksGo_prompts
    (oracle : Nat → Nat → String → Except Unit (List TerminologyPair))
    (tmxData : TmxData) (datasetInfo : String) (totalUnits : Nat) :
    ∀ (cs : List (List TranslationUnit)) (i : Nat) (s : DriverState),
      (processChunksGo oracle tmxData datasetInfo totalUnits i cs s).prompts =
        s.prompts ++ cs.map
          (fun c => generatePrompt { tmxData with translationUnits := c } datasetInfo) := by
  intro cs
  induction cs with
  | nil => intro i s; simp [processChunksGo]
  | cons c rest ih =>
    intro i s
    simp only [processChunksGo, List.map_cons, ih]
    simp [processOneChunk]

/-- Claim C8: for a non-empty unit list, the sequence of progress values
reported during `processTmxInChunks` — one per chunk — is monotonically
non-decreasing, lies in `[0, 100]` (values are naturals, so the lower bound
is implicit), and its final value is exactly 100 after the last chunk has
been attempted, whatever the extraction oracle does. -/
theorem c8_progress_monotone_to_100
    (oracle : Nat → Nat → String → Except Unit (List TerminologyPair))
    (maxTokensPerChunk : Nat) (tmxData : TmxData) (datasetInfo : String)
    (hne : tmxData.translationUnits ≠ []) :
    List.Chain' (· ≤ ·) (processTmxInChunks oracle maxTokensPerChunk tmxData datasetInfo).progress ∧
    (∀ x ∈ (processTmxInChunks oracle maxTokensPerChunk tmxData datasetInfo).progress, x ≤ 100) ∧
    (processTmxInChunks oracle maxTokensPerChunk tmxData datasetInfo).progress.getLast? = some 100 ∧
    (processTmxInChunks oracle maxTokensPerChunk tmxData datasetInfo).progress.length =
      (makeChunks maxTokensPerChunk tmxData.translationUnits).length := by
  have hresult : (processTmxInChunks oracle maxTokensPerChunk tmxData datasetInfo).progress =
      (processChunksGo oracle tmxData datasetInfo tmxData.translationUnits.length 0
        (makeChunks maxTokensPerChunk tmxData.translationUnits) initialDriverState).progress := rfl
  have hgo := (processChunksGo_progress oracle tmxData datasetInfo
    tmxData.translationUnits.length
    (makeChunks maxTokensPerChunk tmxData.translationUnits) 0 initialDriverState).1
  rw [hresult, hgo]
  simp only [initialDriverState, List.nil_append]
  refine ⟨prefixProgress_chain _ _ _, prefixProgress_le _ _ _, ?_, ?_⟩
  · have hlens : (makeChunks maxTokensPerChunk tmxData.translationUnits).map List.length ≠ [] := by
      simp [makeChunks_ne_nil maxTokensPerChunk hne]
    rw [prefixProgress_getLast _ _ _ hlens, makeChunks_sum_lengths, Nat.zero_add]
    rw [progressValue_total (List.length_pos.mpr hne)]
  · rw [prefixProgress_length, List.length_map]

theorem c8_witness :
    witnessTmx.translationUnits ≠ [] ∧
    (List.Chain' (· ≤ ·) (processTmxInChunks witnessOracleOk 10 witnessTmx "info").progress ∧
    (∀ x ∈ (processTmxInChunks witnessOracleOk 10 witnessTmx "info").progress, x ≤ 100) ∧
    (processTmxInChunks witnessOracleOk 10 witnessTmx "info").progress.getLast? = some 100 ∧
    (processTmxInChunks witnessOracleOk 10 witnessTmx "info").progress.length =
      (makeChunks 10 witnessTmx.translationUnits).length) :=
  ⟨by decide, c8_progress_monotone_to_100 witnessOracleOk 10 witnessTmx "info" (by decide)⟩

theorem chunkRetryGo_fail {call : Nat → Except Unit (List TerminologyPair)}
    (h : ∀ k, call k = Except.error () ∨ call k = Except.ok []) :
    ∀ (retriesLeft retryCount : Nat),
      (chunkRetryGo call retryCount retriesLeft).terms = [] ∧
      (chunkRetryGo call retryCount retriesLeft).failed = true ∧
      (chunkRetryGo call retryCount retriesLeft).attempts = retriesLeft + 1 := by
  intro n
  induction n with
  | zero =>
    intro rc
    rcases h rc with hc | hc <;> simp [chunkRetryGo, hc]
  | succ n ih =>
    intro rc
    have hrec := ih (rc + 1)
    rcases h rc with hc | hc <;>
      simp [chunkRetryGo, hc, hrec.1, hrec.2.1, hrec.2.2]

theorem outcomesFrom_fail
    {oracle : Nat → Nat → String → Except Unit (List TerminologyPair)}
    (h : ∀ i k p, oracle i k p = Except.error () ∨ oracle i k p = Except.ok [])
    (tmxData : TmxData) (datasetInfo : String) :
    ∀ (cs : List (List TranslationUnit)) (i : Nat),
      ((outcomesFrom oracle tmxData datasetInfo i cs).map RetryOutcome.terms).flatten = [] ∧
      ((outcomesFrom oracle tmxData datasetInfo i cs).filter RetryOutcome.failed).length
        = cs.length ∧
      (outcomesFrom oracle tmxData datasetInfo i cs).map RetryOutcome.attempts =
        List.replicate cs.length 3 := by
  intro cs
  induction cs with
  | nil => intro i; simp [outcomesFrom]
  | cons c rest ih =>
    intro i
    have hout := @chunkRetryGo_fail
      (fun a => oracle i a
        (generatePrompt { tmxData with translationUnits := c } datasetInfo))
      (fun k => h i k _) 2 0
    have hrest := ih (i + 1)
    refine ⟨?_, ?_, ?_⟩
    · simp only [outcomesFrom, List.map_cons, List.flatten_cons, chunkOutcome, chunkRetry]
      rw [hout.1, hrest.1]
      rfl
    · simp only [outcomesFrom, List.filter_cons, chunkOutcome, chunkRetry]
      rw [hout.2.1]
      simp [hrest.2.1]
    · simp only [outcomesFrom, List.map_cons, chunkOutcome, chunkRetry]
      rw [hout.2.2, hrest.2.2]
      rfl

/-- Claim C9: when the extraction call fails (throws or yields zero pairs) on
every attempt of every chunk, the run does not raise: every chunk is marked
failed after its 3 attempts, contributes no pairs, processing continues
through all chunks (one progress report per chunk), and the final result is
the empty list.  (In the model the driver is a total function — per-chunk
failures are consumed by the retry loop, never propagated.) -/
theorem c9_all_failures_absorbed
    (oracle : Nat → Nat → String → Except Unit (List TerminologyPair))
    (h : ∀ i k p, oracle i k p = Except.error () ∨ oracle i k p = Except.ok [])
    (maxTokensPerChunk : Nat) (tmxData : TmxData) (datasetInfo : String) :
    (processTmxInChunks oracle maxTokensPerChunk tmxData datasetInfo).terms = [] ∧
    (processTmxInChunks oracle maxTokensPerChunk tmxData datasetInfo).failedChunks =
      (makeChunks maxTokensPerChunk tmxData.translationUnits).length ∧
    (processTmxInChunks oracle maxTokensPerChunk tmxData datasetInfo).attemptsPerChunk =
      List.replicate (makeChunks maxTokensPerChunk tmxData.translationUnits).length 3 ∧
    (processTmxInChunks oracle maxTokensPerChunk tmxData datasetInfo).progress.length =
      (makeChunks maxTokensPerChunk tmxData.translationUnits).length := by
  have hfail := outcomesFrom_fail h tmxData datasetInfo
    (makeChunks maxTokensPerChunk tmxData.translationUnits) 0
  refine ⟨?_, ?_, ?_, ?_⟩
  · have hterm : (processTmxInChunks oracle maxTokensPerChunk tmxData datasetInfo).terms =
        deduplicateTerms
          (((processChunksGo oracle tmxData datasetInfo tmxData.translationUnits.length 0
            (makeChunks maxTokensPerChunk tmxData.translationUnits)
            initialDriverState).allTerms).filter validTerm) := rfl
    rw [hterm, processChunksGo_allTerms, hfail.1]
    simp [initialDriverState, deduplicateTerms]
  · have hf : (processTmxInChunks oracle maxTokensPerChunk tmxData datasetInfo).failedChunks =
        (processChunksGo oracle tmxData datasetInfo tmxData.translationUnits.length 0
          (makeChunks maxTokensPerChunk tmxData.translationUnits)
          initialDriverState).failedChunks := rfl
    rw [hf, processChunksGo_failed, hfail.2.1]
    simp [initialDriverState]
  · have ha : (processTmxInChunks oracle maxTokensPerChunk tmxData datasetInfo).attemptsPerChunk =
        (processChunksGo oracle tmxData datasetInfo tmxData.translationUnits.length 0
          (makeChunks maxTokensPerChunk tmxData.translationUnits)
          initialDriverState).attemptsPerChunk := rfl
    rw [ha, processChunksGo_attempts, hfail.2.2]
    simp [initialDriverState]
  · have hp : (processTmxInChunks oracle maxTokensPerChunk tmxData datasetInfo).progress =
        (processChunksGo oracle tmxData datasetInfo tmxData.translationUnits.length 0
          (makeChunks maxTokensPerChunk tmxData.translationUnits)
          initialDriverState).progress := rfl
    rw [hp, (processChunksGo_progress _ _ _ _ _ _ _).1]
    simp [initialDriverState, prefixProgress_length]

theorem c9_witness :
    (∀ i k p, witnessOracleFail i k p = Except.error () ∨
      witnessOracleFail i k p = Except.ok []) ∧
    ((processTmxInChunks witnessOracleFail 10 witnessTmx "info").terms = [] ∧
    (processTmxInChunks witnessOracleFail 10 witnessTmx "info").failedChunks =
      (makeChunks 10 witnessTmx.translationUnits).length ∧
    (processTmxInChunks witnessOracleFail 10 witnessTmx "info").attemptsPerChunk =
      List.replicate (makeChunks 10 witnessTmx.translationUnits).length 3 ∧
    (processTmxInChunks witnessOracleFail 10 witnessTmx "info").progress.length =
      (makeChunks 10 witnessTmx.translationUnits).length) :=
  ⟨fun _ _ _ => Or.inl rfl,
    c9_all_failures_absorbed witnessOracleFail (fun _ _ _ => Or.inl rfl) 10 witnessTmx "info"⟩

/-- Claim C4 (amended): every pair returned by `processTmxInChunks` is
non-empty after trimming in both fields — raw pairs that are empty after
trimming are dropped by the validity filter and never reach the output — but
the returned values themselves are passed through untrimmed, so they may
carry leading or trailing whitespace (see the counterexample). -/
theorem c4_output_fields_nonblank
    (oracle : Nat → Nat → String → Except Unit (List TerminologyPair))
    (maxTokensPerChunk : Nat) (tmxData : TmxData) (datasetInfo : String) :
    ∀ p ∈ (processTmxInChunks oracle maxTokensPerChunk tmxData datasetInfo).terms,
      jsTrim p.sourceTerm ≠ "" ∧ jsTrim p.targetTerm ≠ "" := by
  intro p hp
  have hterm : (processTmxInChunks oracle maxTokensPerChunk tmxData datasetInfo).terms =
      deduplicateTerms
        (((processChunksGo oracle tmxData datasetInfo tmxData.translationUnits.length 0
          (makeChunks maxTokensPerChunk tmxData.translationUnits)
          initialDriverState).allTerms).filter validTerm) := rfl
  rw [hterm] at hp
  have hv := dedup_valid (fun t ht => (List.mem_filter.mp ht).2) p hp
  exact (validTerm_iff p).mp hv

theorem c4_witness :
    (⟨"hello", "world"⟩ : TerminologyPair) ∈
      (processTmxInChunks witnessOracleOk 10 witnessTmx "info").terms ∧
    (jsTrim (⟨"hello", "world"⟩ : TerminologyPair).sourceTerm ≠ "" ∧
      jsTrim (⟨"hello", "world"⟩ : TerminologyPair).targetTerm ≠ "") :=
  ⟨by decide, c4_output_fields_nonblank witnessOracleOk 10 witnessTmx "info" _ (by decide)⟩

theorem c4_counterexample :
    (processTmxInChunks witnessOraclePadded 10 witnessTmx "info").terms =
      [⟨" hello ", " world "⟩] ∧
    ¬ ∀ p ∈ (processTmxInChunks witnessOraclePadded 10 witnessTmx "info").terms,
        jsTrim p.sourceTerm = p.sourceTerm ∧ jsTrim p.targetTerm = p.targetTerm := by
  decide

/-- Claim C10: `generatePrompt` serializes only the first 100 translation
units of its input (`slice(0, 100)`): its output is unchanged when the input
is truncated to 100 units, and every prompt issued by the driver equals the
prompt of its chunk truncated to the chunk's first 100 units — units beyond
the 100th never appear in any extraction request. -/
theorem c10_prompt_first_100 (tmxData : TmxData) (datasetInfo : String)
    (oracle : Nat → Nat → String → Except Unit (List TerminologyPair))
    (maxTokensPerChunk : Nat) :
    generatePrompt tmxData datasetInfo =
      generatePrompt { tmxData with translationUnits := tmxData.translationUnits.take 100 }
        datasetInfo ∧
    (processTmxInChunks oracle maxTokensPerChunk tmxData datasetInfo).prompts =
      (makeChunks maxTokensPerChunk tmxData.translationUnits).map
        (fun c => generatePrompt { tmxData with translationUnits := c.take 100 }
          datasetInfo) := by
  have hgen : ∀ (td : TmxData), generatePrompt td datasetInfo =
      generatePrompt { td with translationUnits := td.translationUnits.take 100 }
        datasetInfo := by
    intro td
    unfold generatePrompt
    simp [List.take_take]
  refine ⟨hgen tmxData, ?_⟩
  have hp : (processTmxInChunks oracle maxTokensPerChunk tmxData datasetInfo).prompts =
      (processChunksGo oracle tmxData datasetInfo tmxData.translationUnits.length 0
        (makeChunks maxTokensPerChunk tmxData.translationUnits)
        initialDriverState).prompts := rfl
  rw [hp, processChunksGo_prompts]
  simp only [initialDriverState, List.nil_append]
  refine List.map_congr_left ?_
  intro c _
  exact hgen { tmxData with translationUnits := c }

end TermiExtract
